import Mathlib

/-!
Verification of the tuttut fingering engine (src/app/utils.py, src/utils.py)
against its natural-language specification.

Modelling conventions (shallow embedding):
* Graph nodes of the fretboard graph are identified by natural-number ids,
  mirroring the Python `Note` objects used as networkx node keys (which are
  compared by object identity in the node dictionary).  A `FretGraph` packages
  the node list, the stored `pos = (string_index, fret_index)` node attribute,
  the pitch of each node (spec 4.1 represents pitches bijectively by MIDI
  numbers, so pitches are naturals), and the stored `distance` edge attribute.
  Distances are rationals so that all graph-side predicates stay decidable;
  they are cast to the reals inside the difficulty model.
* Python tuples/lists become Lean lists, Python `None` becomes `Option.none`.
* Real-valued code (`math.exp`, `np.log`, divisions) is embedded over `ℝ`;
  `np.log` maps non-positive arguments to `⊥` in `WithBot ℝ`, matching
  `np.log 0 = -inf` (all arrays the Viterbi takes logs of are nonnegative).
-/

/-- Fretboard graph: node ids with their stored attributes.
`pos v = (string_index, fret_index)`, `noteOf v` the pitch (MIDI number) of the
node, `dist u v` the `distance` attribute stored on the edge `(u, v)`.
The construction of this graph is not part of the two source files; per
spec 3 it is a complete graph over positions, so `dist` is total here. -/
structure FretGraph where
  nodes : List Nat
  pos : Nat → Nat × Nat
  noteOf : Nat → Nat
  dist : Nat → Nat → ℚ

/-- src/app/utils.py `get_notes_in_graph`: all nodes of `G` playing `note`. -/
def get_notes_in_graph (G : FretGraph) (note : Nat) : List Nat :=
  G.nodes.filter (fun v => G.noteOf v == note)

/-- `math.dist` on points of the plane: Euclidean distance. -/
noncomputable def mathDist (x y : ℝ × ℝ) : ℝ :=
  Real.sqrt ((x.1 - y.1) ^ 2 + (x.2 - y.2) ^ 2)

/-- src/app/utils.py `distance_between`: rescales the string axis by 1/6 and
returns the Euclidean distance of the adjusted points. -/
noncomputable def distance_between (x y : ℝ × ℝ) : ℝ :=
  mathDist (x.1 / 6, x.2) (y.1 / 6, y.2)

/-- src/utils.py (top-level legacy module) `distance_between`: plain
`math.dist` of the two points, with no axis adjustment. -/
noncomputable def distance_between_legacy (x y : ℝ × ℝ) : ℝ :=
  mathDist x y

/-- src/app/utils.py `get_all_possible_notes`.  Pitches are represented by
their MIDI numbers (spec 4.1: the Note/number conversion is bijective), so a
`Tuning` is the list of open-string MIDI numbers and
`note_number_to_note (n + i) = n + i`.  The Python loop runs
`for ifret in range(nfrets)`; the Python default for `nfrets` is 20. -/
def get_all_possible_notes (tuning : List Nat) (nfrets : Nat) : List (List Nat) :=
  tuning.map (fun s => (List.range nfrets).map (fun ifret => s + ifret))

/-- src/app/utils.py `is_edge_possible`: the stored distance must be < 6 and
the two nodes must sit on different strings. -/
def is_edge_possible (possible_note possible_target_note : Nat) (G : FretGraph) : Bool :=
  decide (G.dist possible_note possible_target_note < 6) &&
    decide ((G.pos possible_note).1 ≠ (G.pos possible_target_note).1)

/-- Edge relation of the path graph built by src/app/utils.py
`build_path_graph`: an edge `u → v` is added exactly when, for some layer
index `idx`, `u` lies in `note_arrays[idx]`, `v` lies in `note_arrays[idx+1]`
and `is_edge_possible u v G` holds. -/
def pathEdge (G : FretGraph) (note_arrays : List (List Nat)) (u v : Nat) : Bool :=
  (List.range (note_arrays.length - 1)).any (fun idx =>
    decide (u ∈ note_arrays.getD idx []) &&
      decide (v ∈ note_arrays.getD (idx + 1) []) && is_edge_possible u v G)

/-- `networkx.all_simple_paths` (as used in `find_all_paths`): depth-first
enumeration of simple paths from the current node `u` to any node of
`targets`; `visited` holds the nodes already on the partial path, candidate
successors are drawn from `allNodes`, and `fuel` bounds the recursion depth
(a simple path never repeats a node, so `allNodes.length` fuel is enough).
If the current node is a target the one-node path is yielded, and the search
still extends past it, exactly as networkx yields every simple path. -/
def simplePathsAux (adj : Nat → Nat → Bool) (targets allNodes : List Nat) :
    Nat → List Nat → Nat → List (List Nat)
  | 0, _, _ => []
  | fuel + 1, visited, u =>
    (if u ∈ targets then [[u]] else []) ++
      (allNodes.filter (fun v => adj u v && !((u :: visited).contains v))).flatMap
        (fun v => (simplePathsAux adj targets allNodes fuel (u :: visited) v).map (u :: ·))

/-- All simple paths from `s` to any target, over the node set `allNodes`. -/
def allSimplePaths (adj : Nat → Nat → Bool) (allNodes targets : List Nat) (s : Nat) :
    List (List Nat) :=
  simplePathsAux adj targets allNodes (allNodes.length + 1) [] s

/-- src/app/utils.py `is_path_already_checked`: some explored path has the
same set of nodes as `current_path`. -/
def is_path_already_checked (paths : List (List Nat)) (current_path : List Nat) : Bool :=
  paths.any (fun path =>
    path.all (fun n => n ∈ current_path) && current_path.all (fun n => n ∈ path))

/-- The non-open fret indices of a path: Python's
`[G.nodes[note]["pos"][1] for note in path if G.nodes[note]["pos"][1] != 0]`,
computed identically in `is_path_possible` and `get_height`. -/
def nonOpen (G : FretGraph) (path : List Nat) : List Nat :=
  (path.map (fun note => (G.pos note).2)).filter (fun f => f != 0)

/-- Python `max` on a list of naturals (only ever used on nonempty lists). -/
def listMax : List Nat → Nat
  | [] => 0
  | f :: fs => fs.foldl max f

/-- Python `min` on a list of naturals (only ever used on nonempty lists). -/
def listMin : List Nat → Nat
  | [] => 0
  | f :: fs => fs.foldl min f

/-- src/app/utils.py `is_path_possible`: at most one note per string, the
non-open frets span less than 5, and the path is no longer than the number of
note arrays. -/
def is_path_possible (G : FretGraph) (path : List Nat) (note_arrays : List (List Nat)) : Bool :=
  let plucked_strings := path.map (fun note => (G.pos note).1)
  let one_per_string := plucked_strings.length == plucked_strings.dedup.length
  let max_fret_span :=
    if 0 < (nonOpen G path).length then
      decide (listMax (nonOpen G path) - listMin (nonOpen G path) < 5)
    else true
  let right_length := decide (path.length ≤ note_arrays.length)
  one_per_string && max_fret_span && right_length

/-- One step of the accumulation loop in `find_all_paths`: a freshly
enumerated path is appended when it is not yet present (as a set) and is
possible. -/
def considerPath (G : FretGraph) (note_arrays : List (List Nat))
    (acc : List (List Nat)) (p : List Nat) : List (List Nat) :=
  if !is_path_already_checked acc p && is_path_possible G p note_arrays then acc ++ [p]
  else acc

/-- Each element of a list paired with the list of the remaining elements, in
list order: the choices `itertools.permutations` makes for the next slot. -/
def selectIdx {α : Type} : List α → List (α × List α)
  | [] => []
  | a :: l => (a, l) :: (selectIdx l).map (fun p => (p.1, a :: p.2))

/-- `itertools.permutations`, with explicit fuel to keep the recursion
structural: pick each element in turn as the head (in list order) and recurse
on the remainder, which reproduces itertools' index-lexicographic order.
`itPermsAux` is only called with fuel at least the list length. -/
def itPermsAux {α : Type} : Nat → List α → List (List α)
  | _, [] => [[]]
  | 0, _ :: _ => []
  | fuel + 1, a :: l =>
    (selectIdx (a :: l)).flatMap (fun p => (itPermsAux fuel p.2).map (p.1 :: ·))

/-- `itertools.permutations(l)` as a list of lists. -/
def itPerms {α : Type} (l : List α) : List (List α) :=
  itPermsAux l.length l

/-- src/app/utils.py `find_all_paths`: for a single note array each note is
its own one-note path; otherwise, for every permutation of the note arrays,
build the layered path graph and accumulate every simple path from a node of
the first array to a node of the last array that is new and possible. -/
def find_all_paths (G : FretGraph) (note_arrays : List (List Nat)) : List (List Nat) :=
  if note_arrays.length = 1 then
    (note_arrays.getD 0 []).map (fun note => [note])
  else
    (itPerms note_arrays).foldl (fun acc perm =>
      (perm.getD 0 []).foldl (fun acc2 s =>
        (allSimplePaths (pathEdge G perm) perm.flatten (perm.getLast?.getD []) s).foldl
          (fun acc3 p => considerPath G perm acc3 p) acc2) acc) []

/-- src/app/utils.py `laplace_distro`: density of a Laplace distribution (the
Python default for `mu` is 0, which is what `compute_path_difficulty` uses). -/
noncomputable def laplace_distro (x b mu : ℝ) : ℝ :=
  (1 / (2 * b)) * Real.exp (-|x - mu| / b)

/-- src/app/utils.py `get_nfingers`: number of non-open positions of the path. -/
def get_nfingers (G : FretGraph) (path : List Nat) : Nat :=
  (path.filter (fun note => (G.pos note).2 != 0)).length

/-- src/app/utils.py `get_n_changed_strings`:
`len(path) - |used_strings ∩ previous_used_strings|` as a Python integer. -/
def get_n_changed_strings (G : FretGraph) (path previous_path : List Nat) : ℤ :=
  let used_strings := (path.map (fun note => (G.pos note).1)).toFinset
  let previous_used_strings := (previous_path.map (fun note => (G.pos note).1)).toFinset
  (path.length : ℤ) - ((used_strings ∩ previous_used_strings).card : ℤ)

/-- src/app/utils.py `get_height`: average of the extreme non-open frets of
the path; with no non-open fret, 0 when no previous path was supplied, else
the height of the previous path (recursive call with the `None` default). -/
noncomputable def get_height (G : FretGraph) (path : List Nat)
    (previous_path : Option (List Nat)) : ℝ :=
  if 0 < (nonOpen G path).length then
    (((listMax (nonOpen G path) : Nat) : ℝ) + ((listMin (nonOpen G path) : Nat) : ℝ)) / 2
  else
    match previous_path with
    | none => 0
    | some p => get_height G p none
termination_by match previous_path with | none => 0 | some _ => 1
decreasing_by simp

/-- src/app/utils.py `get_path_length`: sum of the stored distances between
consecutive notes of the path. -/
def get_path_length (G : FretGraph) : List Nat → ℚ
  | a :: b :: rest => G.dist a b + get_path_length G (b :: rest)
  | _ => 0

/-- The local variable `easiness` of src/app/utils.py
`compute_path_difficulty`, with every intermediate of that function inlined. -/
noncomputable def path_easiness (G : FretGraph) (path previous_path : List Nat) : ℝ :=
  let height := get_height G path (some previous_path)
  let previous_height := if previous_path.length > 0 then get_height G previous_path none else 0
  let dheight := |height - previous_height|
  let length := ((get_path_length G path : ℚ) : ℝ)
  let nfingers := ((get_nfingers G path : Nat) : ℝ)
  let n_changed_strings := ((get_n_changed_strings G path previous_path : ℤ) : ℝ)
  laplace_distro dheight 1 0 * (1 / (1 + height)) * (1 / (1 + nfingers)) *
    (1 / (1 + length)) * (1 / (1 + n_changed_strings))

/-- src/app/utils.py `compute_path_difficulty`: the reciprocal of easiness. -/
noncomputable def compute_path_difficulty (G : FretGraph) (path previous_path : List Nat) : ℝ :=
  1 / path_easiness G path previous_path

/-- The same easiness product as `compute_path_difficulty`, but with the
ΔHeight factor and the changed-strings factor supplied as parameters `dh` and
`cs` (all other factors computed from `path` with an empty previous
fingering).  Used to state what spec 4.4's boundary sentence claims about the
empty-previous case. -/
noncomputable def difficulty_with (G : FretGraph) (path : List Nat) (dh cs : ℝ) : ℝ :=
  let height := get_height G path (some [])
  let length := ((get_path_length G path : ℚ) : ℝ)
  let nfingers := ((get_nfingers G path : Nat) : ℝ)
  1 / (laplace_distro dh 1 0 * (1 / (1 + height)) * (1 / (1 + nfingers)) *
    (1 / (1 + length)) * (1 / (1 + cs)))

/-- src/app/utils.py `build_transition_matrix`: row `iprevious` holds the
inverse difficulties of every fingering given `fingerings[iprevious]`,
normalised by their total. -/
noncomputable def build_transition_matrix (G : FretGraph) (fingerings : List (List Nat)) :
    List (List ℝ) :=
  (List.range fingerings.length).map (fun iprevious =>
    let difficulties := fingerings.map (fun cur =>
      1 / compute_path_difficulty G cur (fingerings.getD iprevious []))
    let difficulties_total := difficulties.sum
    difficulties.map (fun difficulty => difficulty / difficulties_total))

/-- `np.log` on the arrays the Viterbi takes logs of: `-inf` (here `⊥`) for
`0`, and the real logarithm for positive entries.  (numpy would produce `nan`
on negative entries; the matrices fed to `viterbi` are nonnegative, and `⊥`
keeps the same absorbing behaviour through `+` and `max` as `-inf`.) -/
noncomputable def elog (x : ℝ) : WithBot ℝ :=
  if x ≤ 0 then ⊥ else ((Real.log x : ℝ) : WithBot ℝ)

/-- `np.max` over the vector `f 0, …, f (M-1)`. -/
noncomputable def maxRange (f : Nat → WithBot ℝ) (M : Nat) : WithBot ℝ :=
  (List.range M).foldl (fun acc i => max acc (f i)) ⊥

/-- `np.argmax` over the vector `f 0, …, f (M-1)`: the first index attaining
the maximum (a later index replaces the running best only when strictly
greater). -/
noncomputable def argmaxIdx (f : Nat → WithBot ℝ) (M : Nat) : Nat :=
  (List.range M).foldl (fun best j => if f best < f j then j else best) 0

/-- The initial distribution used by `viterbi`: the caller-supplied one, or
`np.full(M, 1/M)` when `None` was passed. -/
noncomputable def vinit (M : Nat) (initial_distribution : Option (Nat → ℝ)) : Nat → ℝ :=
  initial_distribution.getD (fun _ => 1 / (M : ℝ))

/-- The `omega` table of src/app/utils.py `viterbi`:
`omega 0 j = log (pi j * Em j (V 0))` and
`omega (t+1) j = max_i (omega t i + log (Tm i j) + log (Em j (V (t+1))))`.
`M` is `Tm.shape[0]` and observations are read with `V.getD` (every access the
code makes is in bounds). -/
noncomputable def omega (M : Nat) (V : List Nat) (Tm Em : Nat → Nat → ℝ) (pi : Nat → ℝ) :
    Nat → Nat → WithBot ℝ
  | 0 => fun j => elog (pi j * Em j (V.getD 0 0))
  | t + 1 => fun j =>
      maxRange (fun i => omega M V Tm Em pi t i + elog (Tm i j) + elog (Em j (V.getD (t + 1) 0))) M

/-- The `prev` table of src/app/utils.py `viterbi`: `prevF t j` is the code's
`prev[t, j] = argmax_i (omega[t, i] + log Tm[i, j] + log Em[j, V[t+1]])`. -/
noncomputable def prevF (M : Nat) (V : List Nat) (Tm Em : Nat → Nat → ℝ) (pi : Nat → ℝ)
    (t j : Nat) : Nat :=
  argmaxIdx (fun i => omega M V Tm Em pi t i + elog (Tm i j) + elog (Em j (V.getD (t + 1) 0))) M

/-- The backtracking loop of `viterbi` (before the final `np.flip`): starting
from the terminal state, repeatedly follow the stored backpointers
`prev[i, last]` for `i = n-1, n-2, …, 0`. -/
noncomputable def sBuild (M : Nat) (V : List Nat) (Tm Em : Nat → Nat → ℝ) (pi : Nat → ℝ) :
    Nat → Nat → List Nat
  | 0, last_state => [last_state]
  | n + 1, last_state =>
      last_state :: sBuild M V Tm Em pi n (prevF M V Tm Em pi n last_state)

/-- src/app/utils.py `viterbi`: fill `omega` and `prev`, pick the terminal
state `argmax_j omega[T-1, j]`, backtrack, and flip the backtracked array. -/
noncomputable def viterbi (V : List Nat) (M : Nat) (Tm Em : Nat → Nat → ℝ)
    (initial_distribution : Option (Nat → ℝ)) : List Nat :=
  let pi := vinit M initial_distribution
  let T := V.length
  (sBuild M V Tm Em pi (T - 1) (argmaxIdx (fun j => omega M V Tm Em pi (T - 1) j) M)).reverse

/-- A one-node fretboard graph whose only position is the open low string:
node 0 at `(string 0, fret 0)`, all stored distances 0. -/
def G0 : FretGraph where
  nodes := [0]
  pos := fun _ => (0, 0)
  noteOf := fun _ => 40
  dist := fun _ _ => 0

/-- A fretboard graph with two open-string positions 36 strings apart:
node 0 at `(string 0, fret 0)`, node 1 at `(string 36, fret 0)`.  The stored
distance 6 is exactly the spec-4.2 metric distance of the two open positions,
`sqrt ((36/6 - 0/6)^2 + (0 - 0)^2) = 6`. -/
def G3 : FretGraph where
  nodes := [0, 1]
  pos := fun v => if v = 0 then (0, 0) else (36, 0)
  noteOf := fun _ => 40
  dist := fun _ _ => 6

/-- A small fretboard graph for concrete enumeration runs: nodes 0 and 1 play
pitch 5 (at string 0 fret 1 and string 1 fret 3), nodes 2 and 3 play pitch 7
(at string 1 fret 2 and string 2 fret 4); all stored distances 1. -/
def Gw : FretGraph where
  nodes := [0, 1, 2, 3]
  pos := fun v =>
    if v = 0 then (0, 1) else if v = 1 then (1, 3) else if v = 2 then (1, 2) else (2, 4)
  noteOf := fun v => if v ≤ 1 then 5 else 7
  dist := fun _ _ => 1

/-- C9 counterexample: spec 3 promises positions with fret index 0..F
inclusive (F+1 notes per string), but for a one-string tuning and `nfrets = 2`
the string's note list has length 2, not 3: the loop `range(nfrets)` stops at
fret F-1. -/
theorem get_all_possible_notes_counterexample :
    ¬ ((get_all_possible_notes [40] 2).getD 0 []).length = 2 + 1 := by decide

/-- C9 amended: `get_all_possible_notes` returns one list per string, each of
length `nfrets` (frets 0 to nfrets-1), whose entry at fret `j` is the open
string's note transposed up by `j` semitones. -/
theorem get_all_possible_notes_spec (tuning : List Nat) (nfrets : Nat) :
    (get_all_possible_notes tuning nfrets).length = tuning.length ∧
      ∀ i, (h : i < tuning.length) →
        ((get_all_possible_notes tuning nfrets).getD i []).length = nfrets ∧
          ∀ j, j < nfrets →
            ((get_all_possible_notes tuning nfrets).getD i []).getD j 0 = tuning[i] + j := by
  constructor
  · simp [get_all_possible_notes]
  · intro i h
    have hlen : i < (get_all_possible_notes tuning nfrets).length := by
      simpa [get_all_possible_notes] using h
    have hrow : (get_all_possible_notes tuning nfrets).getD i [] =
        (List.range nfrets).map (fun ifret => tuning[i] + ifret) := by
      rw [List.getD_eq_getElem _ _ hlen]
      simp [get_all_possible_notes]
    constructor
    · rw [hrow]
      simp
    · intro j hj
      have hjlen : j < ((List.range nfrets).map (fun ifret => tuning[i] + ifret)).length := by
        simpa using hj
      rw [hrow, List.getD_eq_getElem _ _ hjlen]
      simp

/-- C9 witness: on the concrete tuning `[40, 45]` with 3 frets, string 0 holds
note 42 at fret 2. -/
theorem get_all_possible_notes_spec_witness :
    ((get_all_possible_notes [40, 45] 3).getD 0 []).getD 2 0 = 42 := by
  have h := ((get_all_possible_notes_spec [40, 45] 3).2 0 (by decide)).2 2 (by decide)
  simpa using h

/-- C8 counterexample: the legacy top-level `distance_between` (src/utils.py)
does not divide the string axis by 6: on the points `(6, 0)` and `(0, 0)` it
returns 6, not the claimed `sqrt ((6/6 - 0/6)^2 + 0^2) = 1`. -/
theorem distance_between_counterexample :
    distance_between_legacy (6, 0) (0, 0) ≠
      Real.sqrt (((6 : ℝ) / 6 - 0 / 6) ^ 2 + ((0 : ℝ) - 0) ^ 2) := by
  have h1 : distance_between_legacy (6, 0) (0, 0) = 6 := by
    unfold distance_between_legacy mathDist
    norm_num
    rw [show ((36 : ℝ)) = 6 ^ 2 by norm_num]
    exact Real.sqrt_sq (by norm_num)
  have h2 : Real.sqrt (((6 : ℝ) / 6 - 0 / 6) ^ 2 + ((0 : ℝ) - 0) ^ 2) = 1 := by
    norm_num
  rw [h1, h2]
  norm_num

/-- C8 amended: the app-side `distance_between` (src/app/utils.py) is the
Euclidean distance over the adjusted coordinates with the string axis divided
by 6; the legacy top-level version is the plain Euclidean distance. -/
theorem distance_between_spec (x1 y1 x2 y2 : ℝ) :
    distance_between (x1, y1) (x2, y2) =
        Real.sqrt ((x1 / 6 - x2 / 6) ^ 2 + (y1 - y2) ^ 2) ∧
      distance_between_legacy (x1, y1) (x2, y2) =
        Real.sqrt ((x1 - x2) ^ 2 + (y1 - y2) ^ 2) :=
  ⟨rfl, rfl⟩

/-- C3 counterexample: two open-string positions (fret 0) on different strings
whose stored distance is 6 (the true spec-4.2 metric distance for strings 0
and 36) are rejected by `is_edge_possible`: there is no fret-0 exemption from
the `distance < 6` requirement. -/
theorem is_edge_possible_counterexample :
    (G3.pos 0).2 = 0 ∧ (G3.pos 1).2 = 0 ∧ (G3.pos 0).1 ≠ (G3.pos 1).1 ∧
      is_edge_possible 0 1 G3 = false := by decide

/-- C3 amended: for two open-string positions on different strings,
`is_edge_possible` admits the edge exactly when the stored distance is below
6 — the distance check applies to fret-0 positions like to any others (under
the spec-4.2 metric it passes whenever the strings are fewer than 36 apart). -/
theorem is_edge_possible_open_strings (G : FretGraph) (u v : Nat)
    (_hu : (G.pos u).2 = 0) (_hv : (G.pos v).2 = 0)
    (hs : (G.pos u).1 ≠ (G.pos v).1) :
    is_edge_possible u v G = true ↔ G.dist u v < 6 := by
  simp [is_edge_possible, hs]

/-- C3 witness: the amended statement instantiated on the concrete graph `G3`
(where the stored distance is 6, so both sides of the equivalence are false). -/
theorem is_edge_possible_open_strings_witness :
    (G3.pos 0).2 = 0 ∧ (is_edge_possible 0 1 G3 = true ↔ G3.dist 0 1 < 6) :=
  ⟨by decide, is_edge_possible_open_strings G3 0 1 (by decide) (by decide) (by decide)⟩

/-- Unfolding `get_height` when the path has a non-open fret. -/
theorem get_height_of_pos (G : FretGraph) (path : List Nat) (prev : Option (List Nat))
    (h : 0 < (nonOpen G path).length) :
    get_height G path prev =
      (((listMax (nonOpen G path) : Nat) : ℝ) + ((listMin (nonOpen G path) : Nat) : ℝ)) / 2 := by
  rw [get_height.eq_def, if_pos h]

/-- Unfolding `get_height` on an all-open path with no previous path. -/
theorem get_height_of_empty_none (G : FretGraph) (path : List Nat)
    (h : nonOpen G path = []) :
    get_height G path none = 0 := by
  rw [get_height.eq_def, if_neg (by simp [h])]

/-- Unfolding `get_height` on an all-open path with a previous path. -/
theorem get_height_of_empty_some (G : FretGraph) (path p : List Nat)
    (h : nonOpen G path = []) :
    get_height G path (some p) = get_height G p none := by
  rw [get_height.eq_def, if_neg (by simp [h])]

/-- `get_height` never returns a negative value. -/
theorem get_height_nonneg (G : FretGraph) (path : List Nat) (prev : Option (List Nat)) :
    0 ≤ get_height G path prev := by
  have hnone : ∀ q : List Nat, 0 ≤ get_height G q none := by
    intro q
    rcases hq : nonOpen G q with _ | ⟨f, fs⟩
    · rw [get_height_of_empty_none G q hq]
    · rw [get_height_of_pos G q none (by simp [hq])]
      positivity
  rcases hp : nonOpen G path with _ | ⟨f, fs⟩
  · cases prev with
    | none => rw [get_height_of_empty_none G path hp]
    | some p =>
      rw [get_height_of_empty_some G path p hp]
      exact hnone p
  · rw [get_height_of_pos G path prev (by simp [hp])]
    positivity

/-- C10: `get_height` is total (it is a Lean function), and its previous-path
fallback is exactly one level deep: on a path with no non-open fret it returns
the previous path's height computed with no previous path of its own, that
inner computation returns 0 when the previous path is also all open, and with
no previous path the result is 0. -/
theorem get_height_fallback_one_level (G : FretGraph) (path p : List Nat)
    (h : nonOpen G path = []) :
    get_height G path (some p) = get_height G p none ∧
      (nonOpen G p = [] → get_height G path (some p) = 0) ∧
      get_height G path none = 0 := by
  refine ⟨get_height_of_empty_some G path p h, ?_, get_height_of_empty_none G path h⟩
  intro hp
  rw [get_height_of_empty_some G path p h, get_height_of_empty_none G p hp]

/-- C10 witness: concrete all-open current and previous paths in `G0`. -/
theorem get_height_fallback_one_level_witness :
    nonOpen G0 [0] = [] ∧ get_height G0 [0] (some [0]) = get_height G0 [0] none :=
  ⟨by decide, (get_height_fallback_one_level G0 [0] [0] (by decide)).1⟩

/-- With an empty previous path the changed-strings count is the path length:
the intersection with the empty set of previously used strings is empty. -/
theorem get_n_changed_strings_empty_previous (G : FretGraph) (path : List Nat) :
    get_n_changed_strings G path [] = (path.length : ℤ) := by
  unfold get_n_changed_strings
  simp

/-- C1 counterexample: on the one-node graph `G0` and the single-open-note
path `[0]` with empty previous fingering, `compute_path_difficulty` returns 4,
while the easiness product with ΔHeight term 0 and changed-strings term 0
gives difficulty 2: the code uses `cs = len(path) = 1`, not 0, with an empty
previous fingering. -/
theorem compute_path_difficulty_empty_counterexample :
    compute_path_difficulty G0 [0] [] ≠ difficulty_with G0 [0] 0 0 := by
  have h0 : nonOpen G0 [0] = [] := by decide
  have hnil : nonOpen G0 ([] : List Nat) = [] := by decide
  have h1 : get_height G0 [0] (some []) = 0 := by
    rw [get_height_of_empty_some G0 [0] [] h0, get_height_of_empty_none G0 [] hnil]
  have hcs : get_n_changed_strings G0 [0] [] = 1 := by decide
  have hnf : get_nfingers G0 [0] = 0 := by decide
  have hpl : get_path_length G0 [0] = 0 := by decide
  have hl : compute_path_difficulty G0 [0] [] = 4 := by
    unfold compute_path_difficulty path_easiness laplace_distro
    rw [h1, hcs, hnf, hpl]
    norm_num [Real.exp_zero]
  have hr : difficulty_with G0 [0] 0 0 = 2 := by
    unfold difficulty_with laplace_distro
    rw [h1, hnf, hpl]
    norm_num [Real.exp_zero]
  rw [hl, hr]
  norm_num

/-- C1 amended: with an empty previous fingering, `compute_path_difficulty`
evaluates the easiness product with ΔHeight term equal to the current
fingering's height (the previous height is taken to be 0) and changed-strings
term equal to the number of positions of the current fingering. -/
theorem compute_path_difficulty_empty_previous (G : FretGraph) (path : List Nat) :
    compute_path_difficulty G path [] =
      difficulty_with G path (get_height G path (some [])) (path.length : ℝ) := by
  unfold compute_path_difficulty path_easiness difficulty_with laplace_distro
  rw [get_n_changed_strings_empty_previous]
  simp [abs_abs]

/-- The summed stored distances along a path are nonnegative when every
stored distance is. -/
theorem get_path_length_nonneg (G : FretGraph) (hd : ∀ u v, 0 ≤ G.dist u v) :
    ∀ path, 0 ≤ get_path_length G path := by
  intro path
  induction path with
  | nil => simp [get_path_length]
  | cons a rest ih =>
    cases rest with
    | nil => simp [get_path_length]
    | cons b t =>
      have hstep : get_path_length G (a :: b :: t) = G.dist a b + get_path_length G (b :: t) := by
        simp [get_path_length]
      rw [hstep]
      exact add_nonneg (hd a b) ih

/-- The changed-strings count is never negative: the intersection of used
strings with previously used strings has at most `len(path)` elements. -/
theorem get_n_changed_strings_nonneg (G : FretGraph) (path previous_path : List Nat) :
    0 ≤ get_n_changed_strings G path previous_path := by
  unfold get_n_changed_strings
  dsimp only
  have hcard : (((path.map (fun note => (G.pos note).1)).toFinset ∩
      (previous_path.map (fun note => (G.pos note).1)).toFinset).card : ℤ) ≤ (path.length : ℤ) := by
    have h1 : ((path.map (fun note => (G.pos note).1)).toFinset ∩
        (previous_path.map (fun note => (G.pos note).1)).toFinset).card ≤
        (path.map (fun note => (G.pos note).1)).toFinset.card :=
      Finset.card_le_card Finset.inter_subset_left
    have h2 : (path.map (fun note => (G.pos note).1)).toFinset.card ≤
        (path.map (fun note => (G.pos note).1)).length := (path.map _).toFinset_card_le
    have h3 : (path.map (fun note => (G.pos note).1)).length = path.length := by simp
    omega
  omega

/-- The factor `1 / (1 + x)` lies in `(0, 1]` for nonnegative `x`. -/
theorem one_div_one_add_bounds (x : ℝ) (hx : 0 ≤ x) :
    0 < 1 / (1 + x) ∧ 1 / (1 + x) ≤ 1 := by
  constructor
  · positivity
  · rw [div_le_one (by linarith)]
    linarith

/-- A product of five factors, the first in `(0, 1/2]` and the rest in
`(0, 1]`, lies in `(0, 1/2]`. -/
theorem prod_five_bounds (A B C D E : ℝ) (hA1 : 0 < A) (hA2 : A ≤ 1 / 2)
    (hB1 : 0 < B) (hB2 : B ≤ 1) (hC1 : 0 < C) (hC2 : C ≤ 1)
    (hD1 : 0 < D) (hD2 : D ≤ 1) (hE1 : 0 < E) (hE2 : E ≤ 1) :
    0 < A * B * C * D * E ∧ A * B * C * D * E ≤ 1 / 2 := by
  have h1 : A * B ≤ A := by nlinarith
  have h1p : 0 < A * B := mul_pos hA1 hB1
  have h2 : A * B * C ≤ A * B := by nlinarith
  have h2p : 0 < A * B * C := mul_pos h1p hC1
  have h3 : A * B * C * D ≤ A * B * C := by nlinarith
  have h3p : 0 < A * B * C * D := mul_pos h2p hD1
  have h4 : A * B * C * D * E ≤ A * B * C * D := by nlinarith
  have h4p : 0 < A * B * C * D * E := mul_pos h3p hE1
  exact ⟨h4p, by linarith⟩

/-- The easiness product of `compute_path_difficulty` lies in `(0, 1/2]` when
all stored distances are nonnegative. -/
theorem path_easiness_bounds (G : FretGraph) (path previous_path : List Nat)
    (hd : ∀ u v, 0 ≤ G.dist u v) :
    0 < path_easiness G path previous_path ∧ path_easiness G path previous_path ≤ 1 / 2 := by
  unfold path_easiness laplace_distro
  dsimp only
  have hh : (0 : ℝ) ≤ get_height G path (some previous_path) := get_height_nonneg G path _
  have hnf : (0 : ℝ) ≤ ((get_nfingers G path : Nat) : ℝ) := by positivity
  have hlen : (0 : ℝ) ≤ ((get_path_length G path : ℚ) : ℝ) := by
    exact_mod_cast get_path_length_nonneg G hd path
  have hcs : (0 : ℝ) ≤ ((get_n_changed_strings G path previous_path : ℤ) : ℝ) := by
    exact_mod_cast get_n_changed_strings_nonneg G path previous_path
  obtain ⟨hB1, hB2⟩ := one_div_one_add_bounds _ hh
  obtain ⟨hC1, hC2⟩ := one_div_one_add_bounds _ hnf
  obtain ⟨hD1, hD2⟩ := one_div_one_add_bounds _ hlen
  obtain ⟨hE1, hE2⟩ := one_div_one_add_bounds _ hcs
  refine prod_five_bounds _ _ _ _ _ ?_ ?_ hB1 hB2 hC1 hC2 hD1 hD2 hE1 hE2
  · positivity
  · have hexp : Real.exp (-|(|get_height G path (some previous_path) -
        (if previous_path.length > 0 then get_height G previous_path none else 0)|) - 0| / 1) ≤ 1 := by
      rw [Real.exp_le_one_iff]
      have habs : (0 : ℝ) ≤ |(|get_height G path (some previous_path) -
          (if previous_path.length > 0 then get_height G previous_path none else 0)|) - 0| :=
        abs_nonneg _
      linarith
    nlinarith [Real.exp_pos (-|(|get_height G path (some previous_path) -
      (if previous_path.length > 0 then get_height G previous_path none else 0)|) - 0| / 1)]

/-- C6: whenever all stored edge distances are nonnegative (fret indices are
nonnegative by construction here), `compute_path_difficulty` is strictly
positive and at least 1 — each easiness factor is at most 1 and the Laplace
factor at most 1/2, so easiness lies in `(0, 1/2]`. -/
theorem compute_path_difficulty_ge_one (G : FretGraph) (path previous_path : List Nat)
    (hd : ∀ u v, 0 ≤ G.dist u v) :
    0 < compute_path_difficulty G path previous_path ∧
      1 ≤ compute_path_difficulty G path previous_path := by
  obtain ⟨hpos, hle⟩ := path_easiness_bounds G path previous_path hd
  unfold compute_path_difficulty
  constructor
  · positivity
  · rw [le_div_iff₀ hpos]
    linarith

/-- C6 witness: the difficulty bound instantiated on the concrete graph `G0`
(all stored distances 0) with the one-note path and empty previous path. -/
theorem compute_path_difficulty_ge_one_witness :
    0 < compute_path_difficulty G0 [0] [] ∧ 1 ≤ compute_path_difficulty G0 [0] [] :=
  compute_path_difficulty_ge_one G0 [0] [] (fun _ _ => le_refl 0)

/-- Summing a list divided pointwise by a constant divides the sum. -/
theorem list_sum_map_div (l : List ℝ) (t : ℝ) :
    (l.map (fun d => d / t)).sum = l.sum / t := by
  induction l with
  | nil => simp
  | cons a l ih => simp [ih, add_div]

/-- C4: for a nonempty fingering list and nonnegative stored distances, every
row of `build_transition_matrix` sums to exactly 1, and entry `(i, j)` is the
inverse difficulty of fingering `j` given previous fingering `i`, normalised
by the row total of inverse difficulties.  (The single-fingering case is the
instance `fingerings = [f]`.) -/
theorem build_transition_matrix_rows (G : FretGraph) (fingerings : List (List Nat))
    (hne : fingerings ≠ []) (hd : ∀ u v, 0 ≤ G.dist u v) (i : Nat)
    (hi : i < fingerings.length) :
    ((build_transition_matrix G fingerings).getD i []).sum = 1 ∧
      ∀ j, j < fingerings.length →
        ((build_transition_matrix G fingerings).getD i []).getD j 0 =
          (1 / compute_path_difficulty G (fingerings.getD j []) (fingerings.getD i [])) /
            (fingerings.map (fun cur =>
              1 / compute_path_difficulty G cur (fingerings.getD i []))).sum := by
  have hilen : i < (List.range fingerings.length).length := by simpa using hi
  have hrow : (build_transition_matrix G fingerings).getD i [] =
      (fingerings.map (fun cur =>
        1 / compute_path_difficulty G cur (fingerings.getD i []))).map
        (fun d => d / (fingerings.map (fun cur =>
          1 / compute_path_difficulty G cur (fingerings.getD i []))).sum) := by
    unfold build_transition_matrix
    rw [List.getD_eq_getElem _ _ (by simpa using hilen), List.getElem_map, List.getElem_range]
  have hmem : ∀ x ∈ fingerings.map (fun cur =>
      1 / compute_path_difficulty G cur (fingerings.getD i [])), 0 < x := by
    intro x hx
    obtain ⟨cur, _, rfl⟩ := List.mem_map.mp hx
    have h1 := (compute_path_difficulty_ge_one G cur (fingerings.getD i []) hd).1
    positivity
  have hsum : 0 < (fingerings.map (fun cur =>
      1 / compute_path_difficulty G cur (fingerings.getD i []))).sum := by
    apply List.sum_pos _ hmem
    simpa using hne
  constructor
  · rw [hrow, list_sum_map_div, div_self (ne_of_gt hsum)]
  · intro j hj
    have hjlen : j < (fingerings.map (fun cur =>
        1 / compute_path_difficulty G cur (fingerings.getD i []))).length := by simpa using hj
    rw [hrow, List.getD_eq_getElem _ _ (by simpa using hjlen), List.getElem_map,
      List.getElem_map, List.getD_eq_getElem _ _ hj]

/-- C4 witness: the degenerate single-fingering transition matrix on `G0` has
row 0 summing to 1. -/
theorem build_transition_matrix_rows_witness :
    ((build_transition_matrix G0 [[0]]).getD 0 []).sum = 1 :=
  (build_transition_matrix_rows G0 [[0]] (by simp) (fun _ _ => le_refl 0) 0 (by simp)).1

/-- Unfolding `argmaxIdx` by one step: the running best is replaced by the new
index only on strict improvement, matching `np.argmax`'s first-maximiser
tie-breaking. -/
theorem argmaxIdx_succ (f : Nat → WithBot ℝ) (M : Nat) :
    argmaxIdx f (M + 1) = if f (argmaxIdx f M) < f M then M else argmaxIdx f M := by
  unfold argmaxIdx
  rw [List.range_succ, List.foldl_append]
  rfl

/-- `argmaxIdx` is a valid index, attains the maximum, and is the first index
to do so: every strictly smaller index has a strictly smaller value. -/
theorem argmaxIdx_spec (f : Nat → WithBot ℝ) (M : Nat) (hM : 1 ≤ M) :
    argmaxIdx f M < M ∧ (∀ j, j < M → f j ≤ f (argmaxIdx f M)) ∧
      ∀ j, j < argmaxIdx f M → f j < f (argmaxIdx f M) := by
  induction M, hM using Nat.le_induction with
  | base =>
    have h1 : argmaxIdx f 1 = 0 := by
      unfold argmaxIdx
      rw [show List.range 1 = [0] from rfl, List.foldl_cons, List.foldl_nil]
      exact ite_self 0
    refine ⟨by simp [h1], ?_, ?_⟩
    · intro j hj
      have hj0 : j = 0 := Nat.lt_one_iff.mp hj
      simp [h1, hj0]
    · intro j hj
      rw [h1] at hj
      exact absurd hj (Nat.not_lt_zero j)
  | succ M hM ih =>
    obtain ⟨ih1, ih2, ih3⟩ := ih
    by_cases hc : f (argmaxIdx f M) < f M
    · rw [argmaxIdx_succ, if_pos hc]
      refine ⟨Nat.lt_succ_self M, ?_, ?_⟩
      · intro j hj
        rcases Nat.lt_succ_iff_lt_or_eq.mp hj with h | h
        · exact le_of_lt (lt_of_le_of_lt (ih2 j h) hc)
        · simp [h]
      · intro j hj
        exact lt_of_le_of_lt (ih2 j hj) hc
    · rw [argmaxIdx_succ, if_neg hc]
      refine ⟨Nat.lt_succ_of_lt ih1, ?_, ih3⟩
      intro j hj
      rcases Nat.lt_succ_iff_lt_or_eq.mp hj with h | h
      · exact ih2 j h
      · rw [h]
        exact not_lt.mp hc

/-- The backtracking loop produces `n + 1` states. -/
theorem sBuild_length (M : Nat) (V : List Nat) (Tm Em : Nat → Nat → ℝ) (pi : Nat → ℝ) :
    ∀ n last_state, (sBuild M V Tm Em pi n last_state).length = n + 1 := by
  intro n
  induction n with
  | zero => intro l; rfl
  | succ n ih =>
    intro l
    simp [sBuild, ih]

/-- After flipping, the final entry of the backtracked array is the state the
loop started from. -/
theorem sBuild_reverse_getD_last (M : Nat) (V : List Nat) (Tm Em : Nat → Nat → ℝ)
    (pi : Nat → ℝ) :
    ∀ n last_state, (sBuild M V Tm Em pi n last_state).reverse.getD n 0 = last_state := by
  intro n
  induction n with
  | zero => intro l; rfl
  | succ n ih =>
    intro l
    have hrev : (sBuild M V Tm Em pi (n + 1) l).reverse =
        (sBuild M V Tm Em pi n (prevF M V Tm Em pi n l)).reverse ++ [l] := by
      simp [sBuild]
    rw [hrev, List.getD_append_right]
    · simp [sBuild_length]
    · simp [sBuild_length]

/-- After flipping, every entry of the backtracked array except the last is
the stored backpointer of its successor entry. -/
theorem sBuild_reverse_backptr (M : Nat) (V : List Nat) (Tm Em : Nat → Nat → ℝ)
    (pi : Nat → ℝ) :
    ∀ n last_state t, t < n →
      (sBuild M V Tm Em pi n last_state).reverse.getD t 0 =
        prevF M V Tm Em pi t ((sBuild M V Tm Em pi n last_state).reverse.getD (t + 1) 0) := by
  intro n
  induction n with
  | zero => intro l t ht; exact absurd ht (Nat.not_lt_zero t)
  | succ n ih =>
    intro l t ht
    have hrev : (sBuild M V Tm Em pi (n + 1) l).reverse =
        (sBuild M V Tm Em pi n (prevF M V Tm Em pi n l)).reverse ++ [l] := by
      simp [sBuild]
    have hlen : (sBuild M V Tm Em pi n (prevF M V Tm Em pi n l)).reverse.length = n + 1 := by
      simp [sBuild_length]
    rcases Nat.lt_or_ge t n with hlt | hge
    · rw [hrev, List.getD_append _ _ _ _ (by omega), List.getD_append _ _ _ _ (by omega)]
      exact ih _ t hlt
    · obtain rfl : t = n := by omega
      rw [sBuild_reverse_getD_last M V Tm Em pi (t + 1) l, hrev,
        List.getD_append _ _ _ _ (by omega)]
      exact sBuild_reverse_getD_last M V Tm Em pi t (prevF M V Tm Em pi t l)

/-- C5: for any observation sequence of length T at least 1 and an M-state
model (M at least 1), `viterbi` returns a state sequence of length exactly T;
its final state is `argmaxIdx` of `omega[T-1]` — the first maximiser, so ties
break towards the smaller state index (the two quantified conjuncts make the
maximality and first-maximiser properties explicit) — and every earlier state
equals the stored backpointer `prevF` evaluated at its successor state. -/
theorem viterbi_spec (V : List Nat) (M : Nat) (Tm Em : Nat → Nat → ℝ)
    (initial_distribution : Option (Nat → ℝ)) (hT : 1 ≤ V.length) (hM : 1 ≤ M) :
    (viterbi V M Tm Em initial_distribution).length = V.length ∧
      (viterbi V M Tm Em initial_distribution).getD (V.length - 1) 0 =
        argmaxIdx (omega M V Tm Em (vinit M initial_distribution) (V.length - 1)) M ∧
      (∀ j, j < M →
        omega M V Tm Em (vinit M initial_distribution) (V.length - 1) j ≤
          omega M V Tm Em (vinit M initial_distribution) (V.length - 1)
            ((viterbi V M Tm Em initial_distribution).getD (V.length - 1) 0)) ∧
      (∀ j, j < (viterbi V M Tm Em initial_distribution).getD (V.length - 1) 0 →
        omega M V Tm Em (vinit M initial_distribution) (V.length - 1) j <
          omega M V Tm Em (vinit M initial_distribution) (V.length - 1)
            ((viterbi V M Tm Em initial_distribution).getD (V.length - 1) 0)) ∧
      ∀ t, t + 1 < V.length →
        (viterbi V M Tm Em initial_distribution).getD t 0 =
          prevF M V Tm Em (vinit M initial_distribution) t
            ((viterbi V M Tm Em initial_distribution).getD (t + 1) 0) := by
  have hv : viterbi V M Tm Em initial_distribution =
      (sBuild M V Tm Em (vinit M initial_distribution) (V.length - 1)
        (argmaxIdx (omega M V Tm Em (vinit M initial_distribution) (V.length - 1)) M)).reverse :=
    rfl
  obtain ⟨ha1, ha2, ha3⟩ :=
    argmaxIdx_spec (omega M V Tm Em (vinit M initial_distribution) (V.length - 1)) M hM
  have hlast : (viterbi V M Tm Em initial_distribution).getD (V.length - 1) 0 =
      argmaxIdx (omega M V Tm Em (vinit M initial_distribution) (V.length - 1)) M := by
    rw [hv]
    exact sBuild_reverse_getD_last M V Tm Em (vinit M initial_distribution) (V.length - 1) _
  refine ⟨?_, hlast, ?_, ?_, ?_⟩
  · rw [hv]
    simp only [List.length_reverse, sBuild_length]
    omega
  · intro j hj
    rw [hlast]
    exact ha2 j hj
  · intro j hj
    rw [hlast]
    rw [hlast] at hj
    exact ha3 j hj
  · intro t ht
    rw [hv]
    exact sBuild_reverse_backptr M V Tm Em (vinit M initial_distribution) (V.length - 1) _ t
      (by omega)

/-- C5 witness: a one-observation, one-state model; the decoded sequence has
length 1. -/
theorem viterbi_spec_witness :
    (viterbi [0] 1 (fun _ _ => 1) (fun _ _ => 1) none).length = 1 :=
  (viterbi_spec [0] 1 (fun _ _ => 1) (fun _ _ => 1) none (by decide) (by decide)).1

/-- Soundness of the simple-path enumeration: every produced path starts at
the start node, ends in a target, and follows the adjacency relation. -/
theorem simplePathsAux_sound (adj : Nat → Nat → Bool) (targets allNodes : List Nat) :
    ∀ fuel visited u p, p ∈ simplePathsAux adj targets allNodes fuel visited u →
      p.head? = some u ∧ p.getLast?.getD 0 ∈ targets ∧
        List.Chain' (fun a b => adj a b = true) p := by
  intro fuel
  induction fuel with
  | zero =>
    intro visited u p hp
    simp [simplePathsAux] at hp
  | succ fuel ih =>
    intro visited u p hp
    simp only [simplePathsAux] at hp
    rcases List.mem_append.mp hp with h | h
    · by_cases hu : u ∈ targets
      · rw [if_pos hu] at h
        have hpu : p = [u] := by simpa using h
        subst hpu
        exact ⟨rfl, by simpa using hu, by simp⟩
      · rw [if_neg hu] at h
        simp at h
    · obtain ⟨v, hv, hq⟩ := List.mem_flatMap.mp h
      obtain ⟨q, hq1, rfl⟩ := List.mem_map.mp hq
      obtain ⟨hqh, hql, hqc⟩ := ih (u :: visited) v q hq1
      have hadj : adj u v = true := by
        have hf := (List.mem_filter.mp hv).2
        simp only [Bool.and_eq_true] at hf
        exact hf.1
      refine ⟨rfl, ?_, ?_⟩
      · cases q with
        | nil => simp at hqh
        | cons b t =>
          rw [List.getLast?_cons_cons]
          exact hql
      · rw [List.chain'_cons']
        refine ⟨?_, hqc⟩
        intro y hy
        have hyv : v = y := by
          rw [hqh] at hy
          simpa using hy
        rw [← hyv]
        exact hadj

/-- Membership after the innermost accumulation loop of `find_all_paths`:
a path is either from the accumulator or was enumerated and is possible. -/
theorem foldl_considerPath_mem (G : FretGraph) (na : List (List Nat)) :
    ∀ (l : List (List Nat)) (acc : List (List Nat)) (p : List Nat),
      p ∈ l.foldl (fun acc3 q => considerPath G na acc3 q) acc →
      p ∈ acc ∨ (p ∈ l ∧ is_path_possible G p na = true) := by
  intro l
  induction l with
  | nil => intro acc p hp; exact Or.inl hp
  | cons q l ih =>
    intro acc p hp
    rw [List.foldl_cons] at hp
    rcases ih _ p hp with h | h
    · unfold considerPath at h
      by_cases hc : (!is_path_already_checked acc q && is_path_possible G q na) = true
      · rw [if_pos hc] at h
        rcases List.mem_append.mp h with h1 | h1
        · exact Or.inl h1
        · have hpq : p = q := by simpa using h1
          subst hpq
          have hc2 := hc
          simp only [Bool.and_eq_true] at hc2
          exact Or.inr ⟨List.mem_cons_self _ _, hc2.2⟩
      · rw [if_neg hc] at h
        exact Or.inl h
    · exact Or.inr ⟨List.mem_cons_of_mem _ h.1, h.2⟩

/-- Membership after the per-source loop of `find_all_paths`. -/
theorem foldl_sources_mem (G : FretGraph) (na : List (List Nat))
    (paths : Nat → List (List Nat)) :
    ∀ (sources : List Nat) (acc : List (List Nat)) (p : List Nat),
      p ∈ sources.foldl (fun acc2 s => (paths s).foldl
        (fun acc3 q => considerPath G na acc3 q) acc2) acc →
      p ∈ acc ∨ ∃ s ∈ sources, p ∈ paths s ∧ is_path_possible G p na = true := by
  intro sources
  induction sources with
  | nil => intro acc p hp; exact Or.inl hp
  | cons s sources ih =>
    intro acc p hp
    rw [List.foldl_cons] at hp
    rcases ih _ p hp with h | h
    · rcases foldl_considerPath_mem G na (paths s) acc p h with h1 | h1
      · exact Or.inl h1
      · exact Or.inr ⟨s, List.mem_cons_self _ _, h1.1, h1.2⟩
    · obtain ⟨s2, hs2, h2⟩ := h
      exact Or.inr ⟨s2, List.mem_cons_of_mem _ hs2, h2⟩

/-- Membership after the per-permutation loop of `find_all_paths`: every
accumulated path was enumerated as a simple path of some permutation's layered
path graph, from a node of its first array towards its last array, and passed
`is_path_possible` for that permutation. -/
theorem foldl_perms_mem (G : FretGraph) :
    ∀ (perms : List (List (List Nat))) (acc : List (List Nat)) (p : List Nat),
      p ∈ perms.foldl (fun acc perm => (perm.getD 0 []).foldl (fun acc2 s =>
        (allSimplePaths (pathEdge G perm) perm.flatten (perm.getLast?.getD []) s).foldl
          (fun acc3 q => considerPath G perm acc3 q) acc2) acc) acc →
      p ∈ acc ∨ ∃ perm ∈ perms, ∃ s ∈ perm.getD 0 [],
        p ∈ allSimplePaths (pathEdge G perm) perm.flatten (perm.getLast?.getD []) s ∧
        is_path_possible G p perm = true := by
  intro perms
  induction perms with
  | nil => intro acc p hp; exact Or.inl hp
  | cons perm perms ih =>
    intro acc p hp
    rw [List.foldl_cons] at hp
    rcases ih _ p hp with h | h
    · rcases foldl_sources_mem G perm (fun s => allSimplePaths (pathEdge G perm) perm.flatten
        (perm.getLast?.getD []) s) (perm.getD 0 []) acc p h with h1 | h1
      · exact Or.inl h1
      · obtain ⟨s, hs, h2⟩ := h1
        exact Or.inr ⟨perm, List.mem_cons_self _ _, s, hs, h2⟩
    · obtain ⟨pm, hpm, rest⟩ := h
      exact Or.inr ⟨pm, List.mem_cons_of_mem _ hpm, rest⟩

/-- An element/remainder pair from `selectIdx` is a permutation split of the
original list. -/
theorem selectIdx_perm {α : Type} :
    ∀ (l : List α) (a : α) (r : List α), (a, r) ∈ selectIdx l → l.Perm (a :: r) := by
  intro l
  induction l with
  | nil => intro a r h; simp [selectIdx] at h
  | cons b t ih =>
    intro a r h
    simp only [selectIdx, List.mem_cons] at h
    rcases h with h | h
    · simp only [Prod.mk.injEq] at h
      obtain ⟨rfl, rfl⟩ := h
      exact List.Perm.refl _
    · obtain ⟨pr, hmem, heq⟩ := List.mem_map.mp h
      obtain ⟨a2, r2⟩ := pr
      simp only [Prod.mk.injEq] at heq
      obtain ⟨rfl, rfl⟩ := heq
      have ht := ih a2 r2 hmem
      exact (ht.cons b).trans (List.Perm.swap a2 b r2)

/-- Every list produced by `itPermsAux` is a permutation of its input. -/
theorem itPermsAux_perm {α : Type} :
    ∀ (fuel : Nat) (l : List α) (p : List α), p ∈ itPermsAux fuel l → p.Perm l := by
  intro fuel
  induction fuel with
  | zero =>
    intro l p hp
    cases l with
    | nil =>
      have hp2 : p = [] := by simpa [itPermsAux] using hp
      rw [hp2]
    | cons a t => simp [itPermsAux] at hp
  | succ fuel ih =>
    intro l p hp
    cases l with
    | nil =>
      have hp2 : p = [] := by simpa [itPermsAux] using hp
      rw [hp2]
    | cons a t =>
      simp only [itPermsAux] at hp
      obtain ⟨pr, hsel, hmap⟩ := List.mem_flatMap.mp hp
      obtain ⟨x, r⟩ := pr
      obtain ⟨q, hq, rfl⟩ := List.mem_map.mp hmap
      have h1 : q.Perm r := ih r q hq
      have h2 : (a :: t).Perm (x :: r) := selectIdx_perm (a :: t) x r hsel
      exact (h1.cons x).trans h2.symm

/-- Inverting a `pathEdge`: the edge connects some layer to the next one. -/
theorem pathEdge_dest {G : FretGraph} {perm : List (List Nat)} {u v : Nat}
    (h : pathEdge G perm u v = true) :
    ∃ idx, idx < perm.length - 1 ∧ u ∈ perm.getD idx [] ∧ v ∈ perm.getD (idx + 1) [] := by
  unfold pathEdge at h
  rw [List.any_eq_true] at h
  obtain ⟨idx, hmem, hcond⟩ := h
  rw [List.mem_range] at hmem
  simp only [Bool.and_eq_true] at hcond
  exact ⟨idx, hmem, of_decide_eq_true hcond.1.1, of_decide_eq_true hcond.1.2⟩

/-- Two distinct positions of a list of lists that both contain an element
contribute at least 2 to the count of lists containing it. -/
theorem countP_ge_two (pred : List Nat → Bool) :
    ∀ (l : List (List Nat)) (i j : Nat), i < j → j < l.length →
      pred (l.getD i []) = true → pred (l.getD j []) = true → 2 ≤ l.countP pred := by
  intro l
  induction l with
  | nil => intro i j hij hj _ _; simp at hj
  | cons a l ih =>
    intro i j hij hj hpi hpj
    cases j with
    | zero => omega
    | succ j2 =>
      have hj2 : j2 < l.length := by simpa using hj
      have hpj2 : pred (l.getD j2 []) = true := hpj
      cases i with
      | zero =>
        have hpa : pred a = true := hpi
        have hmem : l.getD j2 [] ∈ l := by
          rw [List.getD_eq_getElem _ _ hj2]
          exact List.getElem_mem hj2
        have hpos : 0 < l.countP pred := List.countP_pos_iff.mpr ⟨_, hmem, hpj2⟩
        rw [List.countP_cons_of_pos _ _ hpa]
        omega
      | succ i2 =>
        have h2 := ih i2 j2 (by omega) hj2 hpi hpj2
        have hle : l.countP pred ≤ (a :: l).countP pred := by
          rw [List.countP_cons]
          omega
        omega

/-- In any permutation of the per-note candidate arrays of a duplicate-free
chord, each node belongs to at most one array: arrays of distinct notes are
disjoint because a node has a single pitch. -/
theorem layer_unique (G : FretGraph) (chord : List Nat) (hnd : chord.Nodup)
    (perm : List (List Nat)) (hperm : perm.Perm (chord.map (get_notes_in_graph G))) :
    ∀ u i j, i < perm.length → j < perm.length →
      u ∈ perm.getD i [] → u ∈ perm.getD j [] → i = j := by
  intro u i j hi hj hui huj
  by_contra hne
  have key : 2 ≤ perm.countP (fun l => decide (u ∈ l)) := by
    rcases Nat.lt_or_ge i j with h | h
    · exact countP_ge_two _ perm i j h hj (by simpa using hui) (by simpa using huj)
    · have hj2 : j < i := by omega
      exact countP_ge_two _ perm j i hj2 hi (by simpa using huj) (by simpa using hui)
  have hcount : perm.countP (fun l => decide (u ∈ l)) =
      (chord.map (get_notes_in_graph G)).countP (fun l => decide (u ∈ l)) :=
    hperm.countP_eq _
  have hmap : (chord.map (get_notes_in_graph G)).countP (fun l => decide (u ∈ l)) =
      chord.countP (fun note => decide (u ∈ get_notes_in_graph G note)) := by
    rw [List.countP_map]
    rfl
  have hmono : chord.countP (fun note => decide (u ∈ get_notes_in_graph G note)) ≤
      chord.countP (fun note => note == G.noteOf u) := by
    apply List.countP_mono_left
    intro a _ ha
    have hu2 : u ∈ get_notes_in_graph G a := of_decide_eq_true ha
    unfold get_notes_in_graph at hu2
    have hfa := (List.mem_filter.mp hu2).2
    simp only [beq_iff_eq] at hfa ⊢
    exact hfa.symm
  have hcnt1 : chord.countP (fun note => note == G.noteOf u) ≤ 1 := by
    have hc := List.nodup_iff_count_le_one.mp hnd (G.noteOf u)
    simpa [List.count] using hc
  omega

/-- Every list equals its index `length - 1` entry at the tail: `getLast?`
with a default agrees with `getD (length - 1)` on nonempty lists. -/
theorem getLast_getD_eq {α : Type} (d : α) :
    ∀ (l : List α), l ≠ [] → l.getLast?.getD d = l.getD (l.length - 1) d := by
  intro l
  induction l with
  | nil => intro h; exact absurd rfl h
  | cons a t ih =>
    intro _
    cases t with
    | nil => rfl
    | cons b t2 =>
      rw [List.getLast?_cons_cons, ih (by simp)]
      have h1 : (a :: b :: t2).length - 1 = t2.length + 1 := by simp
      have h2 : (b :: t2).length - 1 = t2.length := by simp
      rw [h1, h2, List.getD_cons_succ]

/-- Walking along path-graph edges advances the layer index by one per step:
starting from a node of layer `i`, a chain of `pathEdge` steps of length `n`
ends in layer `i + n`, which is still a valid layer. -/
theorem path_last_layer (G : FretGraph) (perm : List (List Nat))
    (huniq : ∀ u i j, i < perm.length → j < perm.length →
      u ∈ perm.getD i [] → u ∈ perm.getD j [] → i = j) :
    ∀ (q : List Nat) (a : Nat) (i : Nat), i < perm.length → a ∈ perm.getD i [] →
      List.Chain' (fun x y => pathEdge G perm x y = true) (a :: q) →
      (a :: q).getLast?.getD 0 ∈ perm.getD (i + q.length) [] ∧ i + q.length < perm.length := by
  intro q
  induction q with
  | nil =>
    intro a i hi ha _
    constructor
    · simpa using ha
    · simpa using hi
  | cons b q ih =>
    intro a i hi ha hchain
    have hab : pathEdge G perm a b = true := (List.chain'_cons.mp hchain).1
    have hchain2 : List.Chain' (fun x y => pathEdge G perm x y = true) (b :: q) :=
      (List.chain'_cons.mp hchain).2
    obtain ⟨idx, hidx, haidx, hbidx⟩ := pathEdge_dest hab
    have hidx2 : idx < perm.length := by omega
    have hidxi : idx = i := huniq a idx i hidx2 hi haidx ha
    subst hidxi
    have hi1 : idx + 1 < perm.length := by omega
    have hrec := ih b (idx + 1) hi1 hbidx hchain2
    have harith : idx + (b :: q).length = idx + 1 + q.length := by
      simp only [List.length_cons]
      omega
    constructor
    · rw [List.getLast?_cons_cons, harith]
      exact hrec.1
    · rw [harith]
      exact hrec.2

/-- C2: for a duplicate-free chord (spec 3: a Chord Input is a set of
required notes), every fingering returned by `find_all_paths` over the
chord's per-note candidate arrays uses exactly as many positions as the chord
has notes — never fewer.  Each path-graph edge advances one layer, layers of
distinct notes are disjoint, and the path runs from layer 0 to the last
layer. -/
theorem find_all_paths_chord_length (G : FretGraph) (chord : List Nat) (hnd : chord.Nodup)
    (p : List Nat) (hp : p ∈ find_all_paths G (chord.map (get_notes_in_graph G))) :
    p.length = chord.length := by
  by_cases hone : (chord.map (get_notes_in_graph G)).length = 1
  · unfold find_all_paths at hp
    rw [if_pos hone] at hp
    obtain ⟨n, _, rfl⟩ := List.mem_map.mp hp
    have hc1 : chord.length = 1 := by simpa using hone
    simp [hc1]
  · unfold find_all_paths at hp
    rw [if_neg hone] at hp
    rcases foldl_perms_mem G (itPerms (chord.map (get_notes_in_graph G))) [] p hp with h | h
    · simp at h
    obtain ⟨perm, hpermmem, s, hs, hsp, _⟩ := h
    have hperm : perm.Perm (chord.map (get_notes_in_graph G)) :=
      itPermsAux_perm _ _ _ hpermmem
    have hlenp : perm.length = chord.length := by
      rw [hperm.length_eq]
      simp
    have huniq := layer_unique G chord hnd perm hperm
    obtain ⟨hhead, hlast, hchain⟩ :=
      simplePathsAux_sound (pathEdge G perm) (perm.getLast?.getD []) perm.flatten
        (perm.flatten.length + 1) [] s p hsp
    cases p with
    | nil => simp at hhead
    | cons a q =>
      have has : a = s := by simpa using hhead
      subst has
      have hne : perm ≠ [] := by
        intro h0
        rw [h0] at hs
        simp at hs
      have hplen : 0 < perm.length := List.length_pos.mpr hne
      have hml := path_last_layer G perm huniq q a 0 hplen hs hchain
      have htarget : (a :: q).getLast?.getD 0 ∈ perm.getD (perm.length - 1) [] := by
        rw [getLast_getD_eq ([] : List Nat) perm hne] at hlast
        exact hlast
      have heq : 0 + q.length = perm.length - 1 :=
        huniq _ _ _ hml.2 (by omega) hml.1 htarget
      simp only [List.length_cons]
      omega

/-- C2 witness: on the concrete graph `Gw`, the chord `[5, 7]` yields the
fingering `[0, 2]`, which has exactly 2 positions. -/
theorem find_all_paths_chord_length_witness :
    ([0, 2] : List Nat) ∈ find_all_paths Gw ([5, 7].map (get_notes_in_graph Gw)) ∧
      ([0, 2] : List Nat).length = ([5, 7] : List Nat).length :=
  ⟨by decide, find_all_paths_chord_length Gw [5, 7] (by decide) [0, 2] (by decide)⟩

/-- C7: every fingering returned by `find_all_paths` satisfies the fret-span
constraint: when it has non-open positions, the spread of their fret indices
is less than 5 (an all-open fingering has no non-open fret, so the constraint
is trivially satisfied). -/
theorem find_all_paths_fret_span (G : FretGraph) (note_arrays : List (List Nat))
    (p : List Nat) (hp : p ∈ find_all_paths G note_arrays)
    (hfr : 0 < (nonOpen G p).length) :
    listMax (nonOpen G p) - listMin (nonOpen G p) < 5 := by
  by_cases hone : note_arrays.length = 1
  · unfold find_all_paths at hp
    rw [if_pos hone] at hp
    obtain ⟨n, _, rfl⟩ := List.mem_map.mp hp
    have hsingle : nonOpen G [n] = [] ∨ nonOpen G [n] = [(G.pos n).2] := by
      unfold nonOpen
      simp only [List.map_cons, List.map_nil, List.filter_cons, List.filter_nil]
      by_cases h0 : ((G.pos n).2 != 0) = true
      · right
        rw [if_pos h0]
      · left
        rw [if_neg h0]
    rcases hsingle with h | h
    · rw [h] at hfr
      simp at hfr
    · rw [h]
      simp only [listMax, listMin, List.foldl_nil]
      omega
  · unfold find_all_paths at hp
    rw [if_neg hone] at hp
    rcases foldl_perms_mem G (itPerms note_arrays) [] p hp with h | h
    · simp at h
    obtain ⟨perm, _, s, _, _, hposs⟩ := h
    unfold is_path_possible at hposs
    dsimp only at hposs
    rw [if_pos hfr] at hposs
    simp only [Bool.and_eq_true] at hposs
    exact of_decide_eq_true hposs.1.2

/-- C7 witness: the concrete fingering `[0, 2]` of `Gw` uses frets 1 and 2,
a span of 1 < 5. -/
theorem find_all_paths_fret_span_witness :
    ([0, 2] : List Nat) ∈ find_all_paths Gw [[0, 1], [2, 3]] ∧
      listMax (nonOpen Gw [0, 2]) - listMin (nonOpen Gw [0, 2]) < 5 :=
  ⟨by decide, find_all_paths_fret_span Gw [[0, 1], [2, 3]] [0, 2] (by decide) (by decide)⟩
